import Mathlib

/-!
Verification of the terminal-typewriter component and the small DOM helpers of
`src/app.js` (the final revision of the file, lines 395-653).

Texts are modelled as `List Char` (a JS string is a finite sequence of code
units; none of the verified properties depend on the encoding).  The `async`
function `typeTerminal` is modelled as a coroutine with explicit suspension
points (`CoroPos`): every `await sleep(...)` in the source is a suspension, and
the host's timer firing is the `resume` step.  All module-level mutable
variables of the script (`terminalTextEl`'s text, `fullText`, `typingAborted`,
`typingFinished`, the observer's `seen` flag and its connected/disconnected
status) live in a single record `TermState`.
-/

namespace PaulCV

/-- The newline separator used by `lines.join("\n")`. -/
def nl : Char := '\n'

/-- Model of `lines.join("\n")` (Array.prototype.join with separator `"\n"`):
empty array gives the empty string, otherwise the lines with a single
separator between consecutive lines. -/
def joinLines : List (List Char) → List Char
  | [] => []
  | [l] => l
  | l :: l2 :: ls => l ++ nl :: joinLines (l2 :: ls)

/-- Suspension points of the `typeTerminal` coroutine.
`charSleep i c` is the `await sleep(TYPE_MS + ...)` right after appending
character `c` of line `i`; `lineSleep i` is the `await sleep(LINE_PAUSE_MS)`
right after appending the newline that follows line `i`; `notStarted` means
`typeTerminal()` has not run yet; `done` means the coroutine returned. -/
inductive CoroPos where
  | notStarted
  | charSleep (i c : Nat)
  | lineSleep (i : Nat)
  | done
  deriving Repr, DecidableEq

/-- The mutable module-level state of the script (plus the presence of the
display element, which is fixed for a page load). -/
structure TermState where
  /-- `terminalTextEl.textContent` -/
  displayed : List Char
  /-- the module variable `fullText` -/
  fullText : List Char
  /-- the module variable `typingAborted` -/
  typingAborted : Bool
  /-- the module variable `typingFinished` -/
  typingFinished : Bool
  /-- where the (single) `typeTerminal` coroutine is suspended -/
  pos : CoroPos
  /-- the observer callback's `seen` flag -/
  seen : Bool
  /-- whether `io.disconnect()` has not yet been called -/
  obsConnected : Bool
  /-- whether `terminalTextEl` is non-null -/
  hasEl : Bool
  deriving Repr, DecidableEq

/-- The state at page load: empty text, no flags set, coroutine not started,
observer connected, display element present. -/
def initState : TermState :=
  { displayed := [], fullText := [], typingAborted := false,
    typingFinished := false, pos := CoroPos.notStarted,
    seen := false, obsConnected := true, hasEl := true }

/-- Line `i` of the input (`lines[i]`); out-of-range reads never happen on the
paths the loops take, so the default is irrelevant. -/
def lineAt (lines : List (List Char)) (i : Nat) : List Char := lines.getD i []

/-- One step of the inner `for (let c = 0; ...)` loop body of `typeTerminal`:
check `typingAborted`, append `line[c]` to both texts, suspend at the
per-character sleep. -/
def runChar (lines : List (List Char)) (i c : Nat) (s : TermState) : TermState :=
  if s.typingAborted then { s with pos := CoroPos.done }
  else
    let ch := ((lineAt lines i).drop c).take 1
    { s with displayed := s.displayed ++ ch, fullText := s.fullText ++ ch,
             pos := CoroPos.charSleep i c }

/-- The code after the inner character loop of line `i` exits: if `i` is not
the last index, append the newline (note: with no `typingAborted` check) and
suspend at the line pause; otherwise the outer loop ends and
`typingFinished = true` runs. -/
def runLineEnd (lines : List (List Char)) (i : Nat) (s : TermState) : TermState :=
  if i + 1 < lines.length then
    { s with displayed := s.displayed ++ [nl], fullText := s.fullText ++ [nl],
             pos := CoroPos.lineSleep i }
  else { s with typingFinished := true, pos := CoroPos.done }

/-- The top of outer-loop iteration `i` of `typeTerminal`: when the loop
condition fails, `typingFinished = true` runs; otherwise check
`typingAborted`, then enter the character loop of line `i` (which is skipped
entirely for an empty line). -/
def runOuter (lines : List (List Char)) (i : Nat) (s : TermState) : TermState :=
  if i < lines.length then
    if s.typingAborted then { s with pos := CoroPos.done }
    else if (lineAt lines i).length = 0 then runLineEnd lines i s
    else runChar lines i 0 s
  else { s with typingFinished := true, pos := CoroPos.done }

/-- The synchronous prefix of a call to `typeTerminal()`: return immediately
when the element is missing or `lines` is empty, otherwise clear both texts
and run until the first `await` (or until the function returns). -/
def typeTerminalCall (lines : List (List Char)) (s : TermState) : TermState :=
  if !s.hasEl || lines.isEmpty then s
  else runOuter lines 0 { s with displayed := [], fullText := [] }

/-- A pending `sleep` timer fires and the coroutine resumes at its suspension
point.  Resuming after character `c` of line `i` increments `c`; when the
line is exhausted the post-loop code of line `i` runs (newline append or
finish); resuming from a line pause starts outer iteration `i + 1`.  With no
suspended coroutine the callback does not exist and nothing happens. -/
def resume (lines : List (List Char)) (s : TermState) : TermState :=
  match s.pos with
  | CoroPos.charSleep i c =>
      if c + 1 < (lineAt lines i).length then runChar lines i (c + 1) s
      else runLineEnd lines i s
  | CoroPos.lineSleep i => runOuter lines (i + 1) s
  | _ => s

/-- `finishTerminalInstant()`: no-op when the element is missing or typing has
finished; otherwise set the abort flag, replace both texts with the full
join, and mark typing finished. -/
def finishTerminalInstant (lines : List (List Char)) (s : TermState) : TermState :=
  if !s.hasEl || s.typingFinished then s
  else
    { s with typingAborted := true,
             displayed := joinLines lines,
             fullText := joinLines lines,
             typingFinished := true }

/-- The observer callback on an entry with `isIntersecting`: record `seen`.
After `io.disconnect()` no callback is delivered. -/
def visEnter (s : TermState) : TermState :=
  if s.obsConnected then { s with seen := true } else s

/-- The observer callback on an entry that left the viewport:
`else if (seen && !typingFinished) { finishTerminalInstant(); io.disconnect(); }`.
After `io.disconnect()` no callback is delivered. -/
def visExit (lines : List (List Char)) (s : TermState) : TermState :=
  if s.obsConnected then
    if s.seen && !s.typingFinished then
      { finishTerminalInstant lines s with obsConnected := false }
    else s
  else s

/-- The hard-cap timer:
`if (!typingFinished) { finishTerminalInstant(); io.disconnect(); }`. -/
def deadlineFire (lines : List (List Char)) (s : TermState) : TermState :=
  if s.typingFinished then s
  else { finishTerminalInstant lines s with obsConnected := false }

/-- Outcome of a click on the copy button: the state after the handler's
synchronous part, the string it computed for copying, and whether it went on
to write it to the clipboard. -/
structure CopyResult where
  state : TermState
  text : List Char
  wrote : Bool
  deriving Repr, DecidableEq

/-- JS `String.prototype.trim` whitespace test, restricted to the ASCII
whitespace code points (the inputs of this page contain no exotic spaces). -/
def isJsSpace (c : Char) : Bool :=
  c = ' ' || c = '\t' || c = '\n' || c = '\r' || c = '\u000B' || c = '\u000C'

/-- JS `String.prototype.trim`: strip the whitespace run at each end. -/
def jsTrim (l : List Char) : List Char :=
  ((l.dropWhile isJsSpace).reverse.dropWhile isJsSpace).reverse

/-- The copy-button click handler:
`if (!typingFinished) finishTerminalInstant();` then
`textToCopy = (fullText || (terminalTextEl ? terminalTextEl.textContent : "")).trim();`
and `if (!textToCopy) return;` before the clipboard write. -/
def copyClick (lines : List (List Char)) (s : TermState) : CopyResult :=
  let s1 := if s.typingFinished then s else finishTerminalInstant lines s
  let raw := if s1.fullText.isEmpty then
               (if s1.hasEl then s1.displayed else [])
             else s1.fullText
  let t := jsTrim raw
  { state := s1, text := t, wrote := !t.isEmpty }

/-- The external triggers that can act on the typewriter state. -/
inductive Ev where
  | startCall
  | tick
  | visEnter
  | visExit
  | deadline
  | copy
  deriving Repr, DecidableEq

/-- Apply one trigger to the state. -/
def step (lines : List (List Char)) (s : TermState) : Ev → TermState
  | Ev.startCall => typeTerminalCall lines s
  | Ev.tick => resume lines s
  | Ev.visEnter => visEnter s
  | Ev.visExit => visExit lines s
  | Ev.deadline => deadlineFire lines s
  | Ev.copy => (copyClick lines s).state

/-- Run a sequence of triggers from a state. -/
def runEvs (lines : List (List Char)) : List Ev → TermState → TermState
  | [], s => s
  | e :: es, s => runEvs lines es (step lines s e)

/-- Iterate `resume` (timer firings) `n` times. -/
def iterResume (lines : List (List Char)) : Nat → TermState → TermState
  | 0, s => s
  | n + 1, s => iterResume lines n (resume lines s)

/-! ### Bookkeeping for the natural (never aborted) run -/

/-- The text accumulated once lines `0 .. i-1` have been fully typed, each
followed by its newline. -/
def doneUpTo (lines : List (List Char)) (i : Nat) : List Char :=
  ((lines.take i).map (fun l => l ++ [nl])).flatten

/-- Number of pending timer firings contributed by a list of untyped lines
(one per character plus one per line for its newline pause or the final
return). -/
def sufCostL : List (List Char) → Nat
  | [] => 0
  | l :: ls => l.length + 1 + sufCostL ls

/-- `sufCostL` of the lines from index `j` on. -/
def sufCost (lines : List (List Char)) (j : Nat) : Nat :=
  sufCostL (lines.drop j)

/-- Timer firings still needed to finish from a suspension point. -/
def posCost (lines : List (List Char)) : CoroPos → Nat
  | CoroPos.done => 0
  | CoroPos.notStarted => sufCost lines 0 + 1
  | CoroPos.charSleep i c => ((lineAt lines i).length - 1 - c) + 1 + sufCost lines (i + 1)
  | CoroPos.lineSleep i => sufCost lines (i + 1)

/-- The exact accumulated text at each suspension point of a natural run. -/
def typedAt (lines : List (List Char)) : CoroPos → Option (List Char)
  | CoroPos.charSleep i c => some (doneUpTo lines i ++ (lineAt lines i).take (c + 1))
  | CoroPos.lineSleep i => some (doneUpTo lines (i + 1))
  | CoroPos.done => some (joinLines lines)
  | CoroPos.notStarted => none

/-- Index bounds that every reachable suspension point satisfies. -/
def posOk (lines : List (List Char)) : CoroPos → Prop
  | CoroPos.charSleep i c => i < lines.length ∧ c < (lineAt lines i).length
  | CoroPos.lineSleep i => i + 1 < lines.length
  | CoroPos.done => True
  | CoroPos.notStarted => False

/-- Invariant of the natural run of `typeTerminal` (no abort trigger fires):
the display and the copy buffer agree, contain exactly the text determined by
the suspension point, indices are in range, and `typingFinished` holds
exactly once the coroutine has returned. -/
def NatInv (lines : List (List Char)) (s : TermState) : Prop :=
  s.typingAborted = false ∧ s.hasEl = true ∧ s.displayed = s.fullText ∧
  typedAt lines s.pos = some s.fullText ∧ posOk lines s.pos ∧
  (match s.pos with
   | CoroPos.done => s.typingFinished = true
   | _ => s.typingFinished = false)

/-- Facts that hold in every state the page can reach: the display element
stays present, and the observer is only ever disconnected at the moment a
completion is recorded. -/
def SysInv (s : TermState) : Prop :=
  s.hasEl = true ∧ (s.obsConnected = false → s.typingFinished = true)

/-- The state right after the page-load call `typeTerminal()`. -/
def startState (lines : List (List Char)) : TermState :=
  typeTerminalCall lines initState

/-- How many timer firings the natural run needs after `typeTerminal()`. -/
def natSteps (lines : List (List Char)) : Nat :=
  posCost lines (startState lines).pos

/-- The accumulated text when the animation is left alone until it finishes. -/
def naturalFinalText (lines : List (List Char)) : List Char :=
  (iterResume lines (natSteps lines) (startState lines)).fullText

/-! ### Embedded line data (`readTerminalLines`) and the link filter -/

/-- Values `JSON.parse` can produce. -/
inductive JsVal where
  | null
  | boolean (b : Bool)
  | number (q : Int)
  | string (s : List Char)
  | array (elems : List JsVal)
  | object (fields : List (List Char × JsVal))

/-- The source text `"[]"` substituted by `el.textContent || "[]"`. -/
def jsonEmptyArray : List Char := ['[', ']']

/-- `readTerminalLines()`.  The host's `JSON.parse` is a parameter `parse`;
`parse src = none` models it throwing (the `catch` branch).  `el` is the
`textContent` of `document.getElementById("terminalLines")`, or `none` when
the element is absent. -/
def readTerminalLines (parse : List Char → Option JsVal)
    (el : Option (List Char)) : List JsVal :=
  match el with
  | none => []
  | some content =>
      let src := if content.isEmpty then jsonEmptyArray else content
      match parse src with
      | none => []
      | some (JsVal.array xs) => xs
      | some _ => []

/-- The display style `hideUnsetProjectLinks` assigns to one element carrying
`data-project-link`, from its `href` attribute (`none` when the attribute is
absent):
`href = (a.getAttribute("href") || "").trim();`
`a.style.display = !href || href === "#" ? "none" : "inline-block";`. -/
def projectLinkDisplay (href0 : Option (List Char)) : List Char :=
  let href := jsTrim (href0.getD [])
  if href = [] ∨ href = ['#'] then "none".data else "inline-block".data

/-! ### List lemmas -/

theorem take_one_drop {α : Type} (l : List α) (c : Nat) (h : c < l.length) :
    l.take c ++ (l.drop c).take 1 = l.take (c + 1) := by
  induction l generalizing c with
  | nil => simp at h
  | cons a l ih =>
    cases c with
    | zero => simp
    | succ c =>
      simp only [List.take_succ_cons, List.drop_succ_cons, List.cons_append,
        List.cons.injEq, true_and]
      exact ih c (by simpa using h)

theorem drop_eq_lineAt_cons (lines : List (List Char)) (i : Nat)
    (h : i < lines.length) :
    lines.drop i = lineAt lines i :: lines.drop (i + 1) := by
  induction lines generalizing i with
  | nil => simp at h
  | cons l ls ih =>
    cases i with
    | zero => simp [lineAt]
    | succ i =>
      simp only [List.drop_succ_cons]
      simpa [lineAt] using ih i (by simpa using h)

theorem lineAt_cons_succ (l : List Char) (ls : List (List Char)) (i : Nat) :
    lineAt (l :: ls) (i + 1) = lineAt ls i := by
  simp [lineAt]

theorem doneUpTo_cons_succ (l : List Char) (ls : List (List Char)) (k : Nat) :
    doneUpTo (l :: ls) (k + 1) = (l ++ [nl]) ++ doneUpTo ls k := by
  simp only [doneUpTo, List.take_succ_cons, List.map_cons, List.flatten_cons]

theorem doneUpTo_succ (lines : List (List Char)) (i : Nat)
    (h : i < lines.length) :
    doneUpTo lines (i + 1) = doneUpTo lines i ++ lineAt lines i ++ [nl] := by
  induction lines generalizing i with
  | nil => simp at h
  | cons l ls ih =>
    cases i with
    | zero => simp [doneUpTo, lineAt]
    | succ i =>
      rw [doneUpTo_cons_succ, doneUpTo_cons_succ, lineAt_cons_succ,
        ih i (by simpa using h)]
      simp [List.append_assoc]

theorem joinLines_cons (l : List Char) (ls : List (List Char)) (h : ls ≠ []) :
    joinLines (l :: ls) = l ++ nl :: joinLines ls := by
  cases ls with
  | nil => exact absurd rfl h
  | cons l2 ls2 => rfl

theorem join_split (lines : List (List Char)) (i : Nat) (h : i < lines.length) :
    joinLines lines = doneUpTo lines i ++ joinLines (lines.drop i) := by
  induction lines generalizing i with
  | nil => simp at h
  | cons l ls ih =>
    cases i with
    | zero => simp [doneUpTo]
    | succ i =>
      have hi : i < ls.length := by simpa using h
      have hne : ls ≠ [] := by
        intro hc; rw [hc] at hi; simp at hi
      rw [joinLines_cons l ls hne, ih i hi, doneUpTo_cons_succ]
      simp [List.append_assoc]

theorem last_join (lines : List (List Char)) (i : Nat)
    (h : i + 1 = lines.length) :
    joinLines lines = doneUpTo lines i ++ lineAt lines i := by
  have hi : i < lines.length := by omega
  rw [join_split lines i hi, drop_eq_lineAt_cons lines i hi]
  have : lines.drop (i + 1) = [] := by
    rw [h]; exact List.drop_length lines
  rw [this]
  rfl

theorem joinLines_head (l : List Char) (ls : List (List Char)) :
    ∃ t, joinLines (l :: ls) = l ++ t := by
  cases ls with
  | nil => exact ⟨[], (List.append_nil l).symm⟩
  | cons l2 ls2 => exact ⟨nl :: joinLines (l2 :: ls2), rfl⟩

theorem sufCost_at (lines : List (List Char)) (j : Nat) (h : j < lines.length) :
    sufCost lines j = (lineAt lines j).length + 1 + sufCost lines (j + 1) := by
  unfold sufCost
  rw [drop_eq_lineAt_cons lines j h]
  rfl

/-! ### The natural run preserves the invariant -/

theorem natInv_resume (lines : List (List Char)) (s : TermState)
    (h : NatInv lines s) : NatInv lines (resume lines s) := by
  obtain ⟨hab, hel, hdisp, htyped, hpos, hfin⟩ := h
  cases hp : s.pos with
  | notStarted =>
    rw [hp] at hpos
    exact absurd hpos (by simp [posOk])
  | done =>
    have hr : resume lines s = s := by simp [resume, hp]
    rw [hr]
    exact ⟨hab, hel, hdisp, htyped, hpos, hfin⟩
  | charSleep i c =>
    rw [hp] at htyped hpos hfin
    simp only [typedAt, Option.some.injEq] at htyped
    simp only [posOk] at hpos
    obtain ⟨hi, hc⟩ := hpos
    have hfin' : s.typingFinished = false := hfin
    by_cases hcl : c + 1 < (lineAt lines i).length
    · simp only [resume, hp, if_pos hcl, runChar, hab, if_neg Bool.false_ne_true]
      refine ⟨rfl, hel, by rw [hdisp], ?_, ⟨hi, hcl⟩, hfin'⟩
      simp only [typedAt, Option.some.injEq, List.drop_zero]
      rw [← htyped, List.append_assoc, take_one_drop (lineAt lines i) (c + 1) hcl]
    · have hceq : c + 1 = (lineAt lines i).length := by omega
      by_cases hil : i + 1 < lines.length
      · simp only [resume, hp, if_neg hcl, runLineEnd, if_pos hil]
        refine ⟨hab, hel, by rw [hdisp], ?_, hil, hfin'⟩
        simp only [typedAt, Option.some.injEq]
        rw [doneUpTo_succ lines i hi, ← htyped, hceq, List.take_length,
          List.append_assoc]
      · have hlast : i + 1 = lines.length := by omega
        simp only [resume, hp, if_neg hcl, runLineEnd, if_neg hil]
        refine ⟨hab, hel, hdisp, ?_, trivial, rfl⟩
        simp only [typedAt, Option.some.injEq]
        rw [last_join lines i hlast, ← htyped, hceq, List.take_length]
  | lineSleep i =>
    rw [hp] at htyped hpos hfin
    simp only [typedAt, Option.some.injEq] at htyped
    simp only [posOk] at hpos
    have hfin' : s.typingFinished = false := hfin
    by_cases hlen0 : (lineAt lines (i + 1)).length = 0
    · have hemp : lineAt lines (i + 1) = [] := List.length_eq_zero.mp hlen0
      by_cases hil2 : i + 1 + 1 < lines.length
      · simp only [resume, hp, runOuter, if_pos hpos, hab,
          if_neg Bool.false_ne_true, if_pos hlen0, runLineEnd, if_pos hil2]
        refine ⟨rfl, hel, by rw [hdisp], ?_, hil2, hfin'⟩
        simp only [typedAt, Option.some.injEq]
        rw [doneUpTo_succ lines (i + 1) hpos, hemp, ← htyped]
        simp
      · have hlast : i + 1 + 1 = lines.length := by omega
        simp only [resume, hp, runOuter, if_pos hpos, hab,
          if_neg Bool.false_ne_true, if_pos hlen0, runLineEnd, if_neg hil2]
        refine ⟨rfl, hel, hdisp, ?_, trivial, rfl⟩
        simp only [typedAt, Option.some.injEq]
        rw [last_join lines (i + 1) hlast, hemp, ← htyped]
        simp
    · simp only [resume, hp, runOuter, if_pos hpos, hab,
        if_neg Bool.false_ne_true, if_neg hlen0, runChar]
      refine ⟨rfl, hel, by rw [hdisp], ?_, ⟨hpos, by omega⟩, hfin'⟩
      simp only [typedAt, Option.some.injEq, List.drop_zero]
      rw [← htyped]

theorem natInv_start (lines : List (List Char)) (hne : lines ≠ []) :
    NatInv lines (typeTerminalCall lines initState) := by
  have hlen : 0 < lines.length := List.length_pos.mpr hne
  have hie : lines.isEmpty = false := by
    cases lines with
    | nil => exact absurd rfl hne
    | cons a l => rfl
  have hcall : typeTerminalCall lines initState = runOuter lines 0 initState := by
    simp [typeTerminalCall, hie, initState]
  rw [hcall]
  by_cases hlen0 : (lineAt lines 0).length = 0
  · have hemp : lineAt lines 0 = [] := List.length_eq_zero.mp hlen0
    by_cases hil : 0 + 1 < lines.length
    · simp only [runOuter, if_pos hlen, initState, if_neg Bool.false_ne_true,
        if_pos hlen0, runLineEnd, if_pos hil]
      refine ⟨rfl, rfl, rfl, ?_, hil, rfl⟩
      simp only [typedAt, Option.some.injEq]
      rw [doneUpTo_succ lines 0 hlen, hemp]
      simp [doneUpTo]
    · have hlast : 0 + 1 = lines.length := by omega
      simp only [runOuter, if_pos hlen, initState, if_neg Bool.false_ne_true,
        if_pos hlen0, runLineEnd, if_neg hil]
      refine ⟨rfl, rfl, rfl, ?_, trivial, rfl⟩
      simp only [typedAt, Option.some.injEq]
      rw [last_join lines 0 hlast, hemp]
      simp [doneUpTo]
  · simp only [runOuter, if_pos hlen, initState, if_neg Bool.false_ne_true,
      if_neg hlen0, runChar]
    refine ⟨rfl, rfl, rfl, ?_, ⟨hlen, by omega⟩, rfl⟩
    simp only [typedAt, Option.some.injEq, List.drop_zero]
    simp [doneUpTo]

/-! ### Termination of the natural run -/

theorem posCost_resume_lt (lines : List (List Char)) (s : TermState)
    (h : NatInv lines s) (hnd : s.pos ≠ CoroPos.done) :
    posCost lines (resume lines s).pos < posCost lines s.pos := by
  obtain ⟨hab, hel, hdisp, htyped, hpos, hfin⟩ := h
  cases hp : s.pos with
  | notStarted =>
    rw [hp] at hpos
    exact absurd hpos (by simp [posOk])
  | done => exact absurd hp hnd
  | charSleep i c =>
    rw [hp] at hpos
    simp only [posOk] at hpos
    obtain ⟨hi, hc⟩ := hpos
    by_cases hcl : c + 1 < (lineAt lines i).length
    · simp only [resume, hp, if_pos hcl, runChar, hab, if_neg Bool.false_ne_true,
        posCost]
      omega
    · by_cases hil : i + 1 < lines.length
      · simp only [resume, hp, if_neg hcl, runLineEnd, if_pos hil, posCost]
        omega
      · simp only [resume, hp, if_neg hcl, runLineEnd, if_neg hil, posCost]
        omega
  | lineSleep i =>
    rw [hp] at hpos
    simp only [posOk] at hpos
    have hscost := sufCost_at lines (i + 1) hpos
    by_cases hlen0 : (lineAt lines (i + 1)).length = 0
    · by_cases hil2 : i + 1 + 1 < lines.length
      · simp only [resume, hp, runOuter, if_pos hpos, hab,
          if_neg Bool.false_ne_true, if_pos hlen0, runLineEnd, if_pos hil2,
          posCost]
        omega
      · simp only [resume, hp, runOuter, if_pos hpos, hab,
          if_neg Bool.false_ne_true, if_pos hlen0, runLineEnd, if_neg hil2,
          posCost]
        omega
    · simp only [resume, hp, runOuter, if_pos hpos, hab,
        if_neg Bool.false_ne_true, if_neg hlen0, runChar, posCost]
      omega

theorem posCost_pos (lines : List (List Char)) (s : TermState)
    (h : NatInv lines s) (hnd : s.pos ≠ CoroPos.done) :
    0 < posCost lines s.pos := by
  obtain ⟨hab, hel, hdisp, htyped, hpos, hfin⟩ := h
  cases hp : s.pos with
  | notStarted => simp [posCost]
  | done => exact absurd hp hnd
  | charSleep i c => simp only [posCost]; omega
  | lineSleep i =>
    rw [hp] at hpos
    simp only [posOk] at hpos
    have hscost := sufCost_at lines (i + 1) hpos
    simp only [posCost]
    omega

theorem natRun (lines : List (List Char)) :
    ∀ (n : Nat) (s : TermState), NatInv lines s → posCost lines s.pos ≤ n →
      NatInv lines (iterResume lines n s) ∧
      (iterResume lines n s).pos = CoroPos.done := by
  intro n
  induction n with
  | zero =>
    intro s h hle
    have hd : s.pos = CoroPos.done := by
      by_contra hnd
      have := posCost_pos lines s h hnd
      omega
    exact ⟨h, hd⟩
  | succ n ih =>
    intro s h hle
    by_cases hnd : s.pos = CoroPos.done
    · have hr : resume lines s = s := by simp [resume, hnd]
      show NatInv lines (iterResume lines n (resume lines s)) ∧
        (iterResume lines n (resume lines s)).pos = CoroPos.done
      rw [hr]
      exact ih s h (by rw [hnd]; simp [posCost])
    · have h2 := natInv_resume lines s h
      have hlt := posCost_resume_lt lines s h hnd
      exact ih (resume lines s) h2 (by omega)

theorem natInv_iter (lines : List (List Char)) :
    ∀ (n : Nat) (s : TermState), NatInv lines s →
      NatInv lines (iterResume lines n s) := by
  intro n
  induction n with
  | zero => intro s h; exact h
  | succ n ih => intro s h; exact ih (resume lines s) (natInv_resume lines s h)

/-! ### What the invariant yields -/

theorem natInv_done_text (lines : List (List Char)) (s : TermState)
    (h : NatInv lines s) (hd : s.pos = CoroPos.done) :
    s.fullText = joinLines lines ∧ s.displayed = joinLines lines ∧
    s.typingFinished = true := by
  obtain ⟨hab, hel, hdisp, htyped, hpos, hfin⟩ := h
  rw [hd] at htyped hfin
  simp only [typedAt, Option.some.injEq] at htyped
  exact ⟨htyped.symm, by rw [hdisp, ← htyped], hfin⟩

theorem natInv_isPre (lines : List (List Char)) (s : TermState)
    (h : NatInv lines s) : ∃ t, s.displayed ++ t = joinLines lines := by
  obtain ⟨hab, hel, hdisp, htyped, hpos, hfin⟩ := h
  cases hp : s.pos with
  | notStarted =>
    rw [hp] at hpos
    exact absurd hpos (by simp [posOk])
  | done =>
    rw [hp] at htyped
    simp only [typedAt, Option.some.injEq] at htyped
    exact ⟨[], by rw [List.append_nil, hdisp, ← htyped]⟩
  | charSleep i c =>
    rw [hp] at htyped hpos
    simp only [typedAt, Option.some.injEq] at htyped
    simp only [posOk] at hpos
    obtain ⟨hi, hc⟩ := hpos
    obtain ⟨t2, ht2⟩ := joinLines_head (lineAt lines i) (lines.drop (i + 1))
    refine ⟨(lineAt lines i).drop (c + 1) ++ t2, ?_⟩
    rw [hdisp, ← htyped, join_split lines i hi, drop_eq_lineAt_cons lines i hi,
      ht2, List.append_assoc, ← List.append_assoc (List.take (c + 1) (lineAt lines i)),
      List.take_append_drop]
  | lineSleep i =>
    rw [hp] at htyped hpos
    simp only [typedAt, Option.some.injEq] at htyped
    simp only [posOk] at hpos
    exact ⟨joinLines (lines.drop (i + 1)),
      by rw [hdisp, ← htyped, ← join_split lines (i + 1) hpos]⟩

theorem naturalFinalText_eq_join (lines : List (List Char)) :
    naturalFinalText lines = joinLines lines := by
  by_cases hne : lines = []
  · subst hne
    have hiter : ∀ n, iterResume [] n initState = initState := by
      intro n
      induction n with
      | zero => rfl
      | succ n ih => exact ih
    show (iterResume [] (natSteps []) (startState [])).fullText = joinLines []
    rw [show startState [] = initState from rfl, hiter]
    rfl
  · have h1 := natRun lines (natSteps lines) (startState lines)
      (natInv_start lines hne) le_rfl
    exact (natInv_done_text lines _ h1.1 h1.2).1

/-! ### Frame facts: which events can change which flags -/

theorem runChar_fin (lines : List (List Char)) (i c : Nat) (s : TermState)
    (h : s.typingFinished = true) : (runChar lines i c s).typingFinished = true := by
  unfold runChar
  split <;> exact h

theorem runLineEnd_fin (lines : List (List Char)) (i : Nat) (s : TermState)
    (h : s.typingFinished = true) : (runLineEnd lines i s).typingFinished = true := by
  unfold runLineEnd
  split
  · exact h
  · rfl

theorem runOuter_fin (lines : List (List Char)) (i : Nat) (s : TermState)
    (h : s.typingFinished = true) : (runOuter lines i s).typingFinished = true := by
  unfold runOuter
  split
  · split
    · exact h
    · split
      · exact runLineEnd_fin lines i s h
      · exact runChar_fin lines i 0 s h
  · rfl

theorem resume_fin (lines : List (List Char)) (s : TermState)
    (h : s.typingFinished = true) : (resume lines s).typingFinished = true := by
  unfold resume
  cases s.pos with
  | notStarted => exact h
  | done => exact h
  | charSleep i c =>
    simp only
    split
    · exact runChar_fin lines i (c + 1) s h
    · exact runLineEnd_fin lines i s h
  | lineSleep i => exact runOuter_fin lines (i + 1) s h

theorem typeTerminalCall_fin (lines : List (List Char)) (s : TermState)
    (h : s.typingFinished = true) :
    (typeTerminalCall lines s).typingFinished = true := by
  unfold typeTerminalCall
  split
  · exact h
  · exact runOuter_fin lines 0 _ h

theorem finishTerminalInstant_fin (lines : List (List Char)) (s : TermState)
    (h : s.typingFinished = true) :
    (finishTerminalInstant lines s).typingFinished = true := by
  simp [finishTerminalInstant, h]

theorem step_fin (lines : List (List Char)) (s : TermState) (e : Ev)
    (h : s.typingFinished = true) : (step lines s e).typingFinished = true := by
  cases e with
  | startCall => exact typeTerminalCall_fin lines s h
  | tick => exact resume_fin lines s h
  | visEnter =>
    simp only [step, visEnter]
    split <;> exact h
  | visExit => simp [step, visExit, h]
  | deadline => simp [step, deadlineFire, h]
  | copy => simp [step, copyClick, h]

theorem sysInv_step (lines : List (List Char)) (s : TermState) (e : Ev)
    (h : SysInv s) : SysInv (step lines s e) := by
  obtain ⟨hel, hconn⟩ := h
  cases e with
  | startCall =>
    simp only [step, typeTerminalCall]
    split
    · exact ⟨hel, hconn⟩
    · unfold runOuter runLineEnd runChar
      split_ifs <;>
        first
          | exact ⟨hel, fun _ => rfl⟩
          | exact ⟨hel, hconn⟩
  | tick =>
    simp only [step, resume]
    cases hp : s.pos with
    | notStarted => exact ⟨hel, hconn⟩
    | done => exact ⟨hel, hconn⟩
    | charSleep i c =>
      simp only
      unfold runChar runLineEnd
      split_ifs <;>
        first
          | exact ⟨hel, fun _ => rfl⟩
          | exact ⟨hel, hconn⟩
    | lineSleep i =>
      simp only
      unfold runOuter runLineEnd runChar
      split_ifs <;>
        first
          | exact ⟨hel, fun _ => rfl⟩
          | exact ⟨hel, hconn⟩
  | visEnter =>
    simp only [step, visEnter]
    split
    · exact ⟨hel, hconn⟩
    · exact ⟨hel, hconn⟩
  | visExit =>
    simp only [step, visExit]
    split_ifs with h1 h2
    · have hnf : s.typingFinished = false := by
        have := (Bool.and_eq_true _ _).mp h2
        simpa using this.2
      refine ⟨?_, fun _ => ?_⟩
      · simp [finishTerminalInstant, hel, hnf]
      · simp [finishTerminalInstant, hel, hnf]
    · exact ⟨hel, hconn⟩
    · exact ⟨hel, hconn⟩
  | deadline =>
    simp only [step, deadlineFire]
    split_ifs with h1
    · exact ⟨hel, hconn⟩
    · have hnf : s.typingFinished = false := by
        simpa using h1
      refine ⟨?_, fun _ => ?_⟩
      · simp [finishTerminalInstant, hel, hnf]
      · simp [finishTerminalInstant, hel, hnf]
  | copy =>
    simp only [step, copyClick]
    split_ifs with h1
    · exact ⟨hel, hconn⟩
    · have hnf : s.typingFinished = false := by
        simpa using h1
      refine ⟨?_, ?_⟩
      · simp [finishTerminalInstant, hel, hnf]
      · intro hc
        simp [finishTerminalInstant, hel, hnf]

theorem sysInv_runEvs (lines : List (List Char)) :
    ∀ (evs : List Ev) (s : TermState), SysInv s → SysInv (runEvs lines evs s) := by
  intro evs
  induction evs with
  | nil => intro s h; exact h
  | cons e es ih => intro s h; exact ih (step lines s e) (sysInv_step lines s e h)

theorem sysInv_init : SysInv initState :=
  ⟨rfl, fun hc => Bool.noConfusion hc⟩

/-! ### The claims -/

/-- Claim C1: invoking `finishTerminalInstant` at any point at which typing
has not yet finished (before `typeTerminal()`, mid-typing with any number of
characters typed, or between lines) leaves the accumulated and displayed
text equal to the lines joined by the newline separator — exactly the final
text that natural completion produces for the same input. -/
theorem forceComplete_final_text (lines : List (List Char)) (s : TermState)
    (hel : s.hasEl = true) (hfin : s.typingFinished = false) :
    (finishTerminalInstant lines s).fullText = joinLines lines ∧
    (finishTerminalInstant lines s).displayed = joinLines lines ∧
    (finishTerminalInstant lines s).typingFinished = true ∧
    joinLines lines = naturalFinalText lines := by
  have hfi : finishTerminalInstant lines s =
      { s with typingAborted := true, displayed := joinLines lines,
               fullText := joinLines lines, typingFinished := true } := by
    simp [finishTerminalInstant, hel, hfin]
  rw [hfi]
  exact ⟨rfl, rfl, rfl, (naturalFinalText_eq_join lines).symm⟩

/-- Concrete instance of `forceComplete_final_text` at the initial state. -/
theorem forceComplete_final_text_witness :
    initState.hasEl = true ∧ initState.typingFinished = false ∧
    (finishTerminalInstant [['h', 'i'], ['o', 'k']] initState).fullText =
      joinLines [['h', 'i'], ['o', 'k']] :=
  ⟨rfl, rfl, (forceComplete_final_text [['h', 'i'], ['o', 'k']] initState rfl rfl).1⟩

/-- Claim C2: for every non-empty line sequence, running the typewriter to
natural completion (no abort trigger) yields accumulated text equal to the
lines joined by the newline, in order; and at every intermediate step the
displayed text is a prefix of that final joined text. -/
theorem natural_run_correct (lines : List (List Char)) (hne : lines ≠ []) :
    (∀ n, ∃ t,
      (iterResume lines n (startState lines)).displayed ++ t = joinLines lines) ∧
    ∃ N, (iterResume lines N (startState lines)).typingFinished = true ∧
         (iterResume lines N (startState lines)).fullText = joinLines lines ∧
         (iterResume lines N (startState lines)).displayed = joinLines lines := by
  have h0 := natInv_start lines hne
  constructor
  · intro n
    exact natInv_isPre lines _ (natInv_iter lines n _ h0)
  · refine ⟨natSteps lines, ?_⟩
    have h1 := natRun lines (natSteps lines) (startState lines) h0 le_rfl
    obtain ⟨ht, hd, hfin⟩ := natInv_done_text lines _ h1.1 h1.2
    exact ⟨hfin, ht, hd⟩

/-- Concrete instance of `natural_run_correct`. -/
theorem natural_run_correct_witness :
    (∀ n, ∃ t,
      (iterResume [['o', 'k']] n (startState [['o', 'k']])).displayed ++ t =
        joinLines [['o', 'k']]) ∧
    ∃ N, (iterResume [['o', 'k']] N (startState [['o', 'k']])).typingFinished = true ∧
         (iterResume [['o', 'k']] N (startState [['o', 'k']])).fullText =
           joinLines [['o', 'k']] ∧
         (iterResume [['o', 'k']] N (startState [['o', 'k']])).displayed =
           joinLines [['o', 'k']] :=
  natural_run_correct [['o', 'k']] (by decide)

/-- Claim C3: once `typingFinished` is true it never reverts, and every
further external trigger — a second `finishTerminalInstant` call, a
visibility-exit event, a copy click, or the deadline — leaves the whole
state (hence the accumulated and displayed text) unchanged; every modelled
operation is total, so none of them raises an error. -/
theorem finished_state_terminal (lines : List (List Char)) (s : TermState)
    (hfin : s.typingFinished = true) :
    finishTerminalInstant lines s = s ∧
    visExit lines s = s ∧
    (copyClick lines s).state = s ∧
    deadlineFire lines s = s ∧
    ∀ e, (step lines s e).typingFinished = true := by
  refine ⟨?_, ?_, ?_, ?_, fun e => step_fin lines s e hfin⟩
  · simp [finishTerminalInstant, hfin]
  · simp [visExit, hfin]
  · simp [copyClick, hfin]
  · simp [deadlineFire, hfin]

/-- Concrete instance of `finished_state_terminal` after a forced completion. -/
theorem finished_state_terminal_witness :
    (finishTerminalInstant [['a']] initState).typingFinished = true ∧
    visExit [['a']] (finishTerminalInstant [['a']] initState) =
      finishTerminalInstant [['a']] initState :=
  ⟨by decide, (finished_state_terminal [['a']] _ (by decide)).2.1⟩

/-- Claim C4 fails on the code: with `lines = ["ab", "c"]`, force-complete
while the coroutine sleeps after the last character of line 0 (text `"ab"`,
completion sets the text to `"ab\nc"`), and the pending character-delay
callback then resumes past the inner loop and appends the newline of line 0
with no `typingAborted` check, leaving `"ab\nc\n"`.  So a pending scheduled
callback does append a character after `forceComplete`. -/
theorem stale_timer_appends_after_force :
    (finishTerminalInstant [['a', 'b'], ['c']]
        (iterResume [['a', 'b'], ['c']] 1
          (startState [['a', 'b'], ['c']]))).typingFinished = true ∧
    (finishTerminalInstant [['a', 'b'], ['c']]
        (iterResume [['a', 'b'], ['c']] 1
          (startState [['a', 'b'], ['c']]))).fullText = ['a', 'b', '\n', 'c'] ∧
    (resume [['a', 'b'], ['c']]
        (finishTerminalInstant [['a', 'b'], ['c']]
          (iterResume [['a', 'b'], ['c']] 1
            (startState [['a', 'b'], ['c']])))).fullText =
      ['a', 'b', '\n', 'c', '\n'] ∧
    (resume [['a', 'b'], ['c']]
        (finishTerminalInstant [['a', 'b'], ['c']]
          (iterResume [['a', 'b'], ['c']] 1
            (startState [['a', 'b'], ['c']])))).displayed =
      ['a', 'b', '\n', 'c', '\n'] := by
  decide

/-- Claim C5 fails on the code: `typeTerminal` has no state guard, so a
second invocation is not a no-op.  Here, after a forced completion the
state is Finished with text `"ab"`, yet calling `typeTerminal()` again
changes the accumulated text (it clears it). -/
theorem typeTerminal_not_idempotent :
    (finishTerminalInstant [['a', 'b']] initState).typingFinished = true ∧
    (typeTerminalCall [['a', 'b']] (finishTerminalInstant [['a', 'b']] initState)).fullText ≠
      (finishTerminalInstant [['a', 'b']] initState).fullText := by
  decide

/-- Claim C5, amended: a re-invocation of `typeTerminal` when the abort flag
is set (the state after any forced completion) first clears both texts and
then returns at the loop's abort check, leaving the displayed and
accumulated text empty — not a no-op. -/
theorem typeTerminal_reinvoke_clears (lines : List (List Char)) (s : TermState)
    (hel : s.hasEl = true) (hne : lines ≠ []) (hab : s.typingAborted = true) :
    typeTerminalCall lines s =
      { s with displayed := [], fullText := [], pos := CoroPos.done } := by
  have hie : lines.isEmpty = false := by
    cases lines with
    | nil => exact absurd rfl hne
    | cons a l => rfl
  have hlen : 0 < lines.length := List.length_pos.mpr hne
  simp [typeTerminalCall, hel, hie, runOuter, hlen, hab]

/-- Concrete instance of `typeTerminal_reinvoke_clears`. -/
theorem typeTerminal_reinvoke_clears_witness :
    typeTerminalCall [['a', 'b']] (finishTerminalInstant [['a', 'b']] initState) =
      { finishTerminalInstant [['a', 'b']] initState with
          displayed := [], fullText := [], pos := CoroPos.done } :=
  typeTerminal_reinvoke_clears [['a', 'b']] _ (by decide) (by decide) (by decide)

/-- Claim C6: over every reachable state, a visibility-exit event forces
completion exactly when an enter has been seen and typing is not finished;
an exit with no prior enter changes nothing; and once completion is forced
(or typing has finished) further exit events change nothing. -/
theorem visExit_forces_exactly_once (lines : List (List Char)) (evs : List Ev) :
    ((runEvs lines evs initState).seen = true →
        (runEvs lines evs initState).typingFinished = false →
        (visExit lines (runEvs lines evs initState)).typingFinished = true ∧
        (visExit lines (runEvs lines evs initState)).fullText = joinLines lines ∧
        visExit lines (visExit lines (runEvs lines evs initState)) =
          visExit lines (runEvs lines evs initState)) ∧
    ((runEvs lines evs initState).seen = false →
        visExit lines (runEvs lines evs initState) = runEvs lines evs initState) ∧
    ((runEvs lines evs initState).typingFinished = true →
        visExit lines (runEvs lines evs initState) = runEvs lines evs initState) := by
  obtain ⟨hel, hconn⟩ := sysInv_runEvs lines evs initState sysInv_init
  set s := runEvs lines evs initState with hs
  refine ⟨?_, ?_, ?_⟩
  · intro hseen hnf
    have hcn : s.obsConnected = true := by
      cases hcn2 : s.obsConnected
      · rw [hconn hcn2] at hnf
        exact Bool.noConfusion hnf
      · rfl
    have hv : visExit lines s =
        { finishTerminalInstant lines s with obsConnected := false } := by
      simp [visExit, hcn, hseen, hnf]
    have hfi : finishTerminalInstant lines s =
        { s with typingAborted := true, displayed := joinLines lines,
                 fullText := joinLines lines, typingFinished := true } := by
      simp [finishTerminalInstant, hel, hnf]
    refine ⟨?_, ?_, ?_⟩
    · rw [hv, hfi]
    · rw [hv, hfi]
    · rw [hv]
      simp [visExit]
  · intro hseen
    simp [visExit, hseen]
  · intro hfin
    simp [visExit, hfin]

/-- Concrete instance of `visExit_forces_exactly_once`: after `typeTerminal()`
and one enter event, an exit forces the full joined text. -/
theorem visExit_forces_exactly_once_witness :
    (runEvs [['a', 'b']] [Ev.startCall, Ev.visEnter] initState).seen = true ∧
    (runEvs [['a', 'b']] [Ev.startCall, Ev.visEnter] initState).typingFinished = false ∧
    (visExit [['a', 'b']]
        (runEvs [['a', 'b']] [Ev.startCall, Ev.visEnter] initState)).fullText =
      joinLines [['a', 'b']] :=
  ⟨by decide, by decide,
    ((visExit_forces_exactly_once [['a', 'b']] [Ev.startCall, Ev.visEnter]).1
        (by decide) (by decide)).2.1⟩

/-- Claim C7 fails on the code: the copy handler applies `.trim()` to the
joined text, so for `lines = ["a "]` a copy click mid-typing yields `"a"`,
not the joined text `"a "`. -/
theorem copy_not_full_join :
    initState.typingFinished = false ∧
    (copyClick [['a', ' ']] initState).text ≠ joinLines [['a', ' ']] := by
  decide

/-- Claim C7, amended: `copyRequested` invoked while typing is not finished
first forces completion and then returns the whitespace-trimmed full joined
text (never a partial accumulation: the result does not depend on the text
accumulated so far). -/
theorem copy_returns_trimmed_join (lines : List (List Char)) (s : TermState)
    (hel : s.hasEl = true) (hfin : s.typingFinished = false) :
    (copyClick lines s).text = jsTrim (joinLines lines) ∧
    (copyClick lines s).state.typingFinished = true ∧
    (copyClick lines s).state.fullText = joinLines lines := by
  have hfi : finishTerminalInstant lines s =
      { s with typingAborted := true, displayed := joinLines lines,
               fullText := joinLines lines, typingFinished := true } := by
    simp [finishTerminalInstant, hel, hfin]
  refine ⟨?_, ?_, ?_⟩ <;> simp [copyClick, hfin, hfi, hel]

/-- Concrete instance of `copy_returns_trimmed_join`. -/
theorem copy_returns_trimmed_join_witness :
    (copyClick [['h', 'i']] initState).text = jsTrim (joinLines [['h', 'i']]) :=
  (copy_returns_trimmed_join [['h', 'i']] initState rfl rfl).1

/-- Claim C8: `readTerminalLines` never raises an error — it is total, and
when the element is absent, the parse throws, or the parsed value is not an
array, the result is the empty sequence; a parsed array is returned as is. -/
theorem readTerminalLines_never_throws (parse : List Char → Option JsVal)
    (el : Option (List Char)) :
    (el = none → readTerminalLines parse el = []) ∧
    (∀ content, el = some content →
        parse (if content.isEmpty then jsonEmptyArray else content) = none →
        readTerminalLines parse el = []) ∧
    (∀ content v, el = some content →
        parse (if content.isEmpty then jsonEmptyArray else content) = some v →
        (∀ xs, v ≠ JsVal.array xs) →
        readTerminalLines parse el = []) ∧
    (∀ content xs, el = some content →
        parse (if content.isEmpty then jsonEmptyArray else content) =
          some (JsVal.array xs) →
        readTerminalLines parse el = xs) := by
  refine ⟨?_, ?_, ?_, ?_⟩
  · intro h
    rw [h]
    rfl
  · intro content h hp
    rw [h]
    simp only [readTerminalLines, hp]
  · intro content v h hp hnv
    rw [h]
    simp only [readTerminalLines, hp]
  · intro content xs h hp
    rw [h]
    simp only [readTerminalLines, hp]

/-- Concrete instance of `readTerminalLines_never_throws` with a throwing
parse. -/
theorem readTerminalLines_never_throws_witness :
    readTerminalLines (fun _ => none) (some ['x']) = [] :=
  (readTerminalLines_never_throws (fun _ => none) (some ['x'])).2.1 ['x'] rfl rfl

/-- Claim C9: with the empty line sequence, `typeTerminal()` is a no-op (the
whole state, display surface included, is unchanged, so an Idle state stays
Idle), and a subsequent copy click computes the empty string and copies
nothing. -/
theorem empty_lines_inert (s : TermState) (hel : s.hasEl = true)
    (hfin : s.typingFinished = false) :
    typeTerminalCall [] s = s ∧
    (copyClick [] s).text = [] ∧ (copyClick [] s).wrote = false := by
  have h1 : typeTerminalCall [] s = s := by
    simp [typeTerminalCall]
  have hfi : finishTerminalInstant [] s =
      { s with typingAborted := true, displayed := [],
               fullText := [], typingFinished := true } := by
    simp [finishTerminalInstant, hel, hfin, joinLines]
  refine ⟨h1, ?_, ?_⟩ <;> simp [copyClick, hfin, hfi, jsTrim]

/-- Concrete instance of `empty_lines_inert` at the initial state. -/
theorem empty_lines_inert_witness :
    typeTerminalCall [] initState = initState ∧
    (copyClick [] initState).text = [] :=
  ⟨(empty_lines_inert initState rfl rfl).1, (empty_lines_inert initState rfl rfl).2.1⟩

/-- Claim C10: an element with `data-project-link` gets display `"none"`
exactly when its trimmed `href` (missing `href` read as empty) is empty or
`"#"`, and display `"inline-block"` in every other case. -/
theorem project_link_display_rule (href0 : Option (List Char)) :
    (projectLinkDisplay href0 = "none".data ↔
      (jsTrim (href0.getD []) = [] ∨ jsTrim (href0.getD []) = ['#'])) ∧
    (projectLinkDisplay href0 = "inline-block".data ↔
      ¬(jsTrim (href0.getD []) = [] ∨ jsTrim (href0.getD []) = ['#'])) := by
  simp only [projectLinkDisplay]
  by_cases hc : jsTrim (href0.getD []) = [] ∨ jsTrim (href0.getD []) = ['#']
  · rw [if_pos hc]
    refine ⟨⟨fun _ => hc, fun _ => rfl⟩, ⟨fun h => absurd h (by decide), fun h => absurd hc h⟩⟩
  · rw [if_neg hc]
    refine ⟨⟨fun h => absurd h.symm (by decide), fun h => absurd h hc⟩, ⟨fun _ => hc, fun _ => rfl⟩⟩

/-- Concrete instances of `project_link_display_rule` on both branches. -/
theorem project_link_display_rule_witness :
    projectLinkDisplay (some [' ', '#', ' ']) = "none".data ∧
    projectLinkDisplay (some ['h', 't']) = "inline-block".data :=
  ⟨(project_link_display_rule (some [' ', '#', ' '])).1.mpr (by decide),
   (project_link_display_rule (some ['h', 't'])).2.mpr (by decide)⟩

end PaulCV
